import Mathlib

/-!
Verification of the ADG (Automatic Diagram Generator) generation pipeline.

The Python sources embedded here are `adg.py` (main script), `methods.py` and
`adg/diag.py`.  Adjacency matrices are modelled as lists of rows of natural
numbers, exactly the Python lists-of-lists the enumerators manipulate; numpy
arrays only wrap the same data.  All filters that mutate a Python list by
deleting entries in reverse index order are embedded as `List.filter`, which
produces the same surviving sublist in the same order.
-/

/-- Adjacency matrix: list of rows, each row a list of entries.  Entry
`m[i][j]` is the multiplicity of directed propagator lines from vertex `i` to
vertex `j`. -/
abbrev MatL : Type := List (List Nat)

/-- Entry `(i, j)` of a matrix, defaulting to `0` out of bounds. -/
def entryAt (m : MatL) (i j : Nat) : Nat := (m.getD i []).getD j 0

/-- Dimension used by the adg.py filters: `len(matrix[0])`. -/
def dim0 (m : MatL) : Nat := (m.getD 0 []).length

/-! ### adg.py `no_loop` (lines 83-95)

For every `i < len(matrix[0])` and every `j in range(i+1)` (so `j ≤ i`,
including `j = i`), the matrix is rejected as soon as both `matrix[i][j]` and
`matrix[j][i]` are non-zero; surviving matrices are appended unchanged. -/

/-- Keep-test performed by `no_loop` on a single matrix. -/
def noLoopKeep (m : MatL) : Bool :=
  decide (∀ i < dim0 m, ∀ j ≤ i, ¬(entryAt m i j ≠ 0 ∧ entryAt m j i ≠ 0))

/-- adg.py `no_loop`: select out matrices with loops between two vertices. -/
def no_loop (matrices : List MatL) : List MatL := matrices.filter noLoopKeep

/-- A directed 2-cycle: a pair of distinct vertices with non-zero entries in
both directions. -/
def hasTwoCycle (m : MatL) : Prop :=
  ∃ i < dim0 m, ∃ j < dim0 m, i ≠ j ∧ entryAt m i j ≠ 0 ∧ entryAt m j i ≠ 0

/-- A self-loop: a non-zero diagonal entry. -/
def hasSelfLoop (m : MatL) : Prop := ∃ i < dim0 m, entryAt m i i ≠ 0

instance (m : MatL) : Decidable (hasTwoCycle m) := by
  unfold hasTwoCycle; infer_instance

instance (m : MatL) : Decidable (hasSelfLoop m) := by
  unfold hasSelfLoop; infer_instance

lemma noLoopKeep_iff (m : MatL) :
    (∀ i < dim0 m, ∀ j ≤ i, ¬(entryAt m i j ≠ 0 ∧ entryAt m j i ≠ 0))
      ↔ ¬(hasTwoCycle m ∨ hasSelfLoop m) := by
  unfold hasTwoCycle hasSelfLoop
  constructor
  · rintro h (⟨i, hi, j, hj, hij, hij0, hji0⟩ | ⟨i, hi, hii⟩)
    · rcases Nat.le_total j i with hle | hle
      · exact h i hi j hle ⟨hij0, hji0⟩
      · exact h j hj i hle ⟨hji0, hij0⟩
    · exact h i hi i le_rfl ⟨hii, hii⟩
  · intro h i hi j hji ⟨hij0, hji0⟩
    rcases eq_or_ne i j with rfl | hne
    · exact h (Or.inr ⟨i, hi, hij0⟩)
    · exact h (Or.inl ⟨i, hi, j, lt_of_le_of_lt hji hi, hne, hij0, hji0⟩)

/-- C8: the loop rule removes exactly those adjacency matrices containing a
directed 2-cycle (both `[i][j]` and `[j][i]` non-zero for some `i ≠ j`) or a
non-zero diagonal entry; every matrix with neither is retained, and retained
matrices pass through unmodified and in order. -/
theorem no_loop_removes_exactly_two_cycles_and_self_loops (matrices : List MatL) :
    no_loop matrices
      = matrices.filter (fun m => decide (¬(hasTwoCycle m ∨ hasSelfLoop m))) := by
  unfold no_loop
  apply List.filter_congr
  intro m _
  unfold noLoopKeep
  rw [decide_eq_decide]
  exact noLoopKeep_iff m

/-! ### adg/diag.py `check_vertex_degree` (lines 39-77)

Builds the authorized-degree tuple `[4] (+ [6] if three-body) (+ [2] unless
canonical-only and vertex_id ≠ 0)`, computes the vertex degree as the sum of
row and column entries minus the diagonal entry (counted once), and deletes a
matrix when a non-distinguished vertex's degree is not in the tuple, or when
vertex 0's degree exceeds `2 * nbody_max_observable`. -/

/-- Authorized degree list built by diag.py `check_vertex_degree`. -/
def authorized_deg (three_body_use canonical_only : Bool) (vertex_id : Nat) : List Nat :=
  [4] ++ (if three_body_use then [6] else [])
      ++ (if (!canonical_only) || vertex_id == 0 then [2] else [])

/-- Vertex degree as computed by diag.py: sum over all indices of
`matrix[index][vid] + matrix[vid][index]`, with the diagonal entry subtracted
once afterwards.  The matrix dimension is `matrix.shape[0] = m.length`. -/
def vertex_degree (m : MatL) (vid : Nat) : Nat :=
  ((List.range m.length).map (fun idx => entryAt m idx vid + entryAt m vid idx)).sum
    - entryAt m vid vid

/-- Keep-test of diag.py `check_vertex_degree` for one vertex. -/
def keep_vertex (tb : Bool) (nmax : Nat) (co : Bool) (vid : Nat) (m : MatL) : Bool :=
  decide (¬((vid ≠ 0 ∧ vertex_degree m vid ∉ authorized_deg tb co vid)
            ∨ (vid = 0 ∧ 2 * nmax < vertex_degree m vid)))

/-- diag.py `check_vertex_degree`: delete (in reverse index order, hence
`filter`) the matrices whose vertex `vid` fails the keep-test. -/
def check_vertex_degree (tb : Bool) (nmax : Nat) (co : Bool) (vid : Nat)
    (matrices : List MatL) : List MatL :=
  matrices.filter (keep_vertex tb nmax co vid)

/-- Degree rule applied at every vertex of an order-`n` matrix: the generation
pipeline calls `check_vertex_degree` once per vertex id. -/
def degree_rule (tb : Bool) (nmax : Nat) (co : Bool) (n : Nat)
    (matrices : List MatL) : List MatL :=
  (List.range n).foldl (fun ms vid => check_vertex_degree tb nmax co vid ms) matrices

/-- Modelled from the spec: the total degree of a vertex as the spec words it,
"sum of incoming and outgoing multiplicities" (a self-loop contributes to both
sums, hence is counted twice). -/
def spec_total_degree (m : MatL) (v : Nat) : Nat :=
  ((List.range m.length).map (fun j => entryAt m j v)).sum
    + ((List.range m.length).map (fun j => entryAt m v j)).sum

/-- Allowed degree set claimed by the spec: exactly 2 or 4, or additionally 6
when three-body vertices are enabled. -/
def spec_allowed (tb : Bool) (d : Nat) : Prop := d = 2 ∨ d = 4 ∨ (tb = true ∧ d = 6)

instance (tb : Bool) (d : Nat) : Decidable (spec_allowed tb d) := by
  unfold spec_allowed; infer_instance

/-- Modelled from the spec: the claimed keep-condition of the degree rule. -/
def spec_degree_keep (tb : Bool) (nmax : Nat) (m : MatL) : Prop :=
  (∀ v < m.length, v ≠ 0 → spec_allowed tb (spec_total_degree m v))
    ∧ spec_total_degree m 0 ≤ 2 * nmax

instance (tb : Bool) (nmax : Nat) (m : MatL) : Decidable (spec_degree_keep tb nmax m) := by
  unfold spec_degree_keep; infer_instance

lemma foldl_filter_singleton {α : Type} (p : Nat → α → Bool) (k : Nat) (x : α) :
    (List.range k).foldl (fun ms vid => ms.filter (p vid)) [x]
      = if ∀ v < k, p v x = true then [x] else [] := by
  induction k with
  | zero => simp
  | succ k ih =>
    rw [List.range_succ, List.foldl_append, ih]
    by_cases h : ∀ v < k, p v x = true
    · simp only [if_pos h, List.foldl_cons, List.foldl_nil]
      by_cases hk : p k x = true
      · have hall : ∀ v < k + 1, p v x = true := by
          intro v hv
          rcases Nat.lt_succ_iff_lt_or_eq.mp hv with h' | rfl
          · exact h v h'
          · exact hk
        simp [List.filter, hk, if_pos hall]
      · have : ¬ ∀ v < k + 1, p v x = true := fun hall => hk (hall k (Nat.lt_succ_self k))
        simp [List.filter, hk, if_neg this]
    · have : ¬ ∀ v < k + 1, p v x = true := by
        intro hall
        exact h (fun v hv => hall v (Nat.lt_succ_of_lt hv))
      simp [if_neg h, if_neg this]

/-- C3 counterexample: with canonical-only mode on, the matrix
`[[0,1],[1,0]]` (both vertices of total degree 2) is removed by the degree
rule even though the claim says a matrix is kept whenever every
non-distinguished vertex has total degree 2 or 4 and vertex 0 is within the
observable bound. -/
theorem degree_rule_claim_fails_in_canonical_mode :
    degree_rule false 3 true 2 [[[0, 1], [1, 0]]] = []
      ∧ spec_degree_keep false 3 [[0, 1], [1, 0]] := by
  constructor
  · decide
  · decide

/-- C3 (amended): with canonical-only mode off, the degree rule keeps a matrix
iff every non-distinguished vertex's degree (self-loops counted once, as the
code computes it) is exactly 2 or 4 — or additionally 6 with three-body
vertices — and vertex 0's degree is at most `2 * nbody_max_observable`. -/
theorem degree_rule_keeps_iff (tb : Bool) (nmax : Nat) (n : Nat) (m : MatL)
    (hlen : m.length = n + 1) :
    degree_rule tb nmax false (n + 1) [m] = [m]
      ↔ ((∀ v < m.length, v ≠ 0 → spec_allowed tb (vertex_degree m v))
          ∧ vertex_degree m 0 ≤ 2 * nmax) := by
  unfold degree_rule check_vertex_degree
  rw [foldl_filter_singleton (fun vid x => keep_vertex tb nmax false vid x) (n + 1) m]
  have hkeep : ∀ v, keep_vertex tb nmax false v m = true
      ↔ (v ≠ 0 → spec_allowed tb (vertex_degree m v))
        ∧ (v = 0 → vertex_degree m 0 ≤ 2 * nmax) := by
    intro v
    unfold keep_vertex
    simp only [decide_eq_true_eq]
    constructor
    · intro h
      refine ⟨fun hv0 => ?_, fun hv0 => ?_⟩
      · by_contra hna
        apply h
        left
        refine ⟨hv0, ?_⟩
        unfold authorized_deg
        simp only [Bool.not_false, Bool.true_or, if_pos]
        intro hmem
        apply hna
        unfold spec_allowed
        rcases tb with _ | _ <;> simp_all <;> tauto
      · subst hv0
        by_contra hna
        exact h (Or.inr ⟨rfl, Nat.lt_of_not_le hna⟩)
    · rintro ⟨h1, h2⟩ (⟨hv0, hnotmem⟩ | ⟨hv0, hbound⟩)
      · apply hnotmem
        have := h1 hv0
        unfold authorized_deg
        unfold spec_allowed at this
        rcases tb with _ | _ <;> simp_all <;> tauto
      · subst hv0
        exact Nat.not_le.mpr hbound (h2 rfl)
  constructor
  · intro h
    have hall : ∀ v < n + 1, keep_vertex tb nmax false v m = true := by
      by_contra hna
      rw [if_neg hna] at h
      exact List.cons_ne_nil m [] h.symm
    constructor
    · intro v hv hv0
      exact ((hkeep v).mp (hall v (hlen ▸ hv))).1 hv0
    · exact ((hkeep 0).mp (hall 0 (Nat.succ_pos n))).2 rfl
  · rintro ⟨h1, h2⟩
    rw [if_pos]
    intro v hv
    refine (hkeep v).mpr ⟨fun hv0 => h1 v (by omega) hv0, fun hv0 => h2⟩

/-- Witness for C3 (amended): the second-order matrix `[[0,2],[2,0]]` has both
vertices of degree 4 and is kept when the observable bound allows degree 4 at
vertex 0. -/
theorem degree_rule_keeps_iff_witness :
    degree_rule false 2 false 2 [[[0, 2], [2, 0]]] = [[[0, 2], [2, 0]]] :=
  (degree_rule_keeps_iff false 2 1 [[0, 2], [2, 0]] rfl).mpr (by decide)

/-! ### adg.py MBPT enumeration (lines 52-134)

`seed` lists all permutations of `range(n)`; each is turned into a one-hot
matrix; `g` keeps the zero-diagonal ones; `diagram_generation` sums every
unordered pair (with repetition) of the surviving matrices, deduplicates by
exact equality and sorts in descending lexicographic order.
`itertools.permutations` and `List.permutations` enumerate in different
orders, which is immaterial: deduplication keeps a set and the final sort
fixes the order. -/

/-- All ways of inserting `a` into a list, used to enumerate permutations by
structural recursion (so that proofs can evaluate the enumeration). -/
def insertEverywhere (a : Nat) : List Nat → List (List Nat)
  | [] => [[a]]
  | b :: bs => (a :: b :: bs) :: (insertEverywhere a bs).map (fun l => b :: l)

/-- All permutations of a list, by successive insertions: the same set of
tuples as `itertools.permutations` produces. -/
def permsOf : List Nat → List (List Nat)
  | [] => [[]]
  | a :: as => (permsOf as).flatMap (insertEverywhere a)

/-- adg.py `seed`: all permutations of `range(n)`. -/
def seed (n : Nat) : List (List Nat) := permsOf (List.range n)

/-- One-hot matrix built from a permutation tuple `k`:
`[[0 if i != j else 1 for i in range(n)] for j in k]`. -/
def seedMat (n : Nat) (k : List Nat) : MatL :=
  k.map (fun j => (List.range n).map (fun i => if i = j then 1 else 0))

/-- Keep-test of adg.py `g`: no diagonal entry equal to 1 (entries here are
only 0 or 1, so this means a zero diagonal). -/
def gKeep (m : MatL) : Bool := decide (∀ i < m.length, entryAt m i i ≠ 1)

/-- adg.py `g`: select the matrices with full 0 diagonal. -/
def gFilter (matrices : List MatL) : List MatL := matrices.filter gKeep

/-- The deduplicated traceless seeds (`traceless` in `diagram_generation`). -/
def traceless (n : Nat) : List MatL := gFilter ((seed n).map (seedMat n))

/-- Pairs `(i, j)` with `i ≤ j < L`, in the order of
`itertools.combinations_with_replacement(range(L), 2)`. -/
def cwrPairs (L : Nat) : List (Nat × Nat) :=
  (List.range L).flatMap (fun i => ((List.range L).drop i).map (fun j => (i, j)))

/-- Element-wise sum of two matrices (the Python loop adds the second matrix
into a deep copy of the first; the shapes always agree in the pipeline). -/
def matAdd (a b : MatL) : MatL :=
  List.zipWith (fun ra rb => List.zipWith (fun x y => x + y) ra rb) a b

/-- Python `for i in double: if i not in doubleUniq: doubleUniq.append(i)`. -/
def uniqKeepFirst (l : List MatL) : List MatL :=
  l.foldl (fun acc x => if x ∈ acc then acc else acc ++ [x]) []

/-- Python `<` on lists of naturals (lexicographic). -/
def natListLt : List Nat → List Nat → Bool
  | [], [] => false
  | [], _ :: _ => true
  | _ :: _, [] => false
  | a :: as, b :: bs => if a < b then true else if b < a then false else natListLt as bs

/-- Python `<` on matrices: lexicographic over rows, rows compared
lexicographically. -/
def matLt : MatL → MatL → Bool
  | [], [] => false
  | [], _ :: _ => true
  | _ :: _, [] => false
  | a :: as, b :: bs =>
    if natListLt a b then true else if natListLt b a then false else matLt as bs

/-- Python `list.sort(reverse=True)` on a duplicate-free list: the unique
ordering that is non-increasing for Python matrix comparison. -/
def pyRevSorted (l : List MatL) : List MatL :=
  List.insertionSort (fun a b => matLt a b = false) l

/-- adg.py `diagram_generation`. -/
def diagram_generation (n : Nat) : List MatL :=
  let t := traceless n
  pyRevSorted (uniqKeepFirst
    ((cwrPairs t.length).map (fun c => matAdd (t.getD c.1 []) (t.getD c.2 []))))

/-! ### Weak-connectivity filter (adg.py lines 332-340)

`nx.number_weakly_connected_components(G) == 1`: breadth-first search from
vertex 0 over undirected edges must reach every vertex, and the graph must be
non-empty. -/

/-- Undirected adjacency test between two vertices. -/
def adjU (m : MatL) (i j : Nat) : Bool := (entryAt m i j != 0) || (entryAt m j i != 0)

/-- Vertices reachable from vertex 0 in at most `k` undirected steps. -/
def reachFrom0 (m : MatL) : Nat → List Nat
  | 0 => [0]
  | k + 1 =>
    let prev := reachFrom0 m k
    (List.range m.length).filter (fun j => prev.contains j || prev.any (fun i => adjU m i j))

/-- Weak connectivity of the diagram on vertex set `range m.length` (the empty
graph has zero weakly connected components, hence is not kept). -/
def weaklyConnected (m : MatL) : Bool :=
  m.length != 0 && (List.range m.length).all (fun v => (reachFrom0 m m.length).contains v)

/-- MBPT pipeline as run by adg.py: enumeration followed by the
weak-connectivity filter (no isomorphism reduction happens for MBPT). -/
def mbptPipeline (n : Nat) : List MatL := (diagram_generation n).filter weaklyConnected

/-- Number of edges of the realized multigraph (`parallel_edges=True`): the
sum of all multiplicities. -/
def numEdges (m : MatL) : Nat := (m.map List.sum).sum

/-- Number of distinct directed edges, i.e. non-zero entries. -/
def nonzeroEntries (m : MatL) : Nat := (m.map (fun row => row.countP (fun x => x != 0))).sum

/-- nx total degree of a vertex: in-multiplicity plus out-multiplicity. -/
def vertDegreeFull (m : MatL) (p v : Nat) : Nat :=
  ((List.range p).map (fun k => entryAt m k v + entryAt m v k)).sum

/-- Out-degree of a vertex: its row sum. -/
def outDeg (m : MatL) (v : Nat) : Nat := (m.getD v []).sum

/-- In-degree of a vertex: the sum of its column. -/
def inDeg (m : MatL) (v : Nat) : Nat :=
  ((List.range m.length).map (fun i => entryAt m i v)).sum

/-- Isomorphism of directed multigraphs on `n` vertices encoded by adjacency
matrices: a vertex permutation carrying every multiplicity onto the other. -/
def isoMulti (n : Nat) (a b : MatL) : Prop :=
  ∃ f : Equiv.Perm (Fin n), ∀ i j : Fin n, entryAt a (f i) (f j) = entryAt b i j

/-- C4 counterexample: at order 2 the MBPT pipeline outputs the single
diagram `[[0,2],[2,0]]`; its realized multigraph has 4 edges (multiplicities
counted, as networkx builds it with `parallel_edges=True`) and both vertices
have total degree 4 — not 2 edges and degree 2 as claimed. -/
theorem mbpt_order2_edge_and_degree_counts_differ :
    mbptPipeline 2 = [[[0, 2], [2, 0]]]
      ∧ numEdges [[0, 2], [2, 0]] ≠ 2
      ∧ vertDegreeFull [[0, 2], [2, 0]] 2 0 ≠ 2
      ∧ vertDegreeFull [[0, 2], [2, 0]] 2 1 ≠ 2 := by
  exact ⟨by decide, by decide, by decide, by decide⟩

/-- C4 (amended): at order 2 the MBPT pipeline outputs exactly 1 diagram,
which has 2 distinct directed edges (4 edges counting multiplicity) and both
vertices of total degree 4. -/
theorem mbpt_order2_pipeline :
    mbptPipeline 2 = [[[0, 2], [2, 0]]]
      ∧ (mbptPipeline 2).length = 1
      ∧ nonzeroEntries [[0, 2], [2, 0]] = 2
      ∧ numEdges [[0, 2], [2, 0]] = 4
      ∧ (∀ v < 2, vertDegreeFull [[0, 2], [2, 0]] 2 v = 4) := by
  exact ⟨by decide, by decide, by decide, by decide, by decide⟩

/-- C5 counterexample: at order 3 the MBPT pipeline outputs 3 connected
diagrams, but the first and the third (the two doubled 3-cycles) are
isomorphic as directed multigraphs via the vertex swap 1 ↔ 2, so the output
is not pairwise non-isomorphic. -/
theorem mbpt_order3_has_isomorphic_pair :
    mbptPipeline 3
      = [[[0, 2, 0], [0, 0, 2], [2, 0, 0]],
         [[0, 1, 1], [1, 0, 1], [1, 1, 0]],
         [[0, 0, 2], [2, 0, 0], [0, 2, 0]]]
      ∧ isoMulti 3 [[0, 2, 0], [0, 0, 2], [2, 0, 0]] [[0, 0, 2], [2, 0, 0], [0, 2, 0]] :=
  ⟨by decide, ⟨Equiv.swap 1 2, by decide⟩⟩

/-- C5 (amended): at order 3 the MBPT pipeline outputs exactly 3 weakly
connected diagrams; they form exactly two isomorphism classes of directed
multigraphs: the two doubled 3-cycles are isomorphic to each other, and
neither is isomorphic to the middle (single-line) diagram. -/
theorem mbpt_order3_pipeline :
    (mbptPipeline 3).length = 3
      ∧ (∀ m ∈ mbptPipeline 3, weaklyConnected m = true)
      ∧ isoMulti 3 [[0, 2, 0], [0, 0, 2], [2, 0, 0]] [[0, 0, 2], [2, 0, 0], [0, 2, 0]]
      ∧ ¬ isoMulti 3 [[0, 2, 0], [0, 0, 2], [2, 0, 0]] [[0, 1, 1], [1, 0, 1], [1, 1, 0]]
      ∧ ¬ isoMulti 3 [[0, 1, 1], [1, 0, 1], [1, 1, 0]] [[0, 0, 2], [2, 0, 0], [0, 2, 0]] := by
  refine ⟨by decide, ?_, ⟨Equiv.swap 1 2, by decide⟩, ?_, ?_⟩
  · intro m hm
    exact (List.mem_filter.mp hm).2
  · unfold isoMulti; decide
  · unfold isoMulti; decide

/-! ### Structure of the MBPT enumerator output (C10) -/

/-- A matrix of exact shape `n × n`. -/
def wellShaped (n : Nat) (m : MatL) : Prop :=
  m.length = n ∧ ∀ row ∈ m, row.length = n

/-- A zero-diagonal permutation matrix on `n` vertices: 0/1 entries with every
row and every column summing to 1 and zero diagonal. -/
def isPermMatrix (n : Nat) (p : MatL) : Prop :=
  wellShaped n p ∧ (∀ i j, entryAt p i j ≤ 1)
    ∧ (∀ v < n, outDeg p v = 1 ∧ inDeg p v = 1)
    ∧ (∀ i, entryAt p i i = 0)

lemma mem_insertEverywhere {k t : List Nat} {a : Nat} (h : k ∈ insertEverywhere a t) :
    ∃ l1 l2, t = l1 ++ l2 ∧ k = l1 ++ a :: l2 := by
  induction t generalizing k with
  | nil =>
    simp only [insertEverywhere, List.mem_singleton] at h
    exact ⟨[], [], rfl, by simp [h]⟩
  | cons b bs ih =>
    simp only [insertEverywhere, List.mem_cons, List.mem_map] at h
    rcases h with rfl | ⟨l, hl, rfl⟩
    · exact ⟨[], b :: bs, rfl, rfl⟩
    · obtain ⟨l1, l2, rfl, rfl⟩ := ih hl
      exact ⟨b :: l1, l2, rfl, rfl⟩

lemma perm_of_mem_permsOf {k l : List Nat} (h : k ∈ permsOf l) : k.Perm l := by
  induction l generalizing k with
  | nil =>
    simp only [permsOf, List.mem_singleton] at h
    simp [h]
  | cons a as ih =>
    simp only [permsOf, List.mem_flatMap] at h
    obtain ⟨t, ht, hk⟩ := h
    obtain ⟨l1, l2, rfl, rfl⟩ := mem_insertEverywhere hk
    exact List.perm_middle.trans ((ih ht).cons a)

lemma sum_map_ite_eq_count (l : List Nat) (a : Nat) :
    (l.map (fun x => if x = a then 1 else 0)).sum = l.count a := by
  induction l with
  | nil => simp
  | cons b bs ih =>
    simp only [List.map_cons, List.sum_cons, List.count_cons, ih]
    by_cases hb : b = a
    · simp [hb]
      omega
    · simp [hb]

lemma sum_map_add_distrib (l : List Nat) (f g : Nat → Nat) :
    (l.map (fun x => f x + g x)).sum = (l.map f).sum + (l.map g).sum := by
  induction l with
  | nil => simp
  | cons b bs ih => simp only [List.map_cons, List.sum_cons, ih]; omega

lemma sum_zipWith_add (as bs : List Nat) (h : as.length = bs.length) :
    (List.zipWith (fun x y => x + y) as bs).sum = as.sum + bs.sum := by
  induction as generalizing bs with
  | nil =>
    cases bs with
    | nil => simp
    | cons b bs => simp at h
  | cons a as ih =>
    cases bs with
    | nil => simp at h
    | cons b bs =>
      simp only [List.zipWith_cons_cons, List.sum_cons, ih bs (by simpa using h)]
      omega

lemma entryAt_row_oob {m : MatL} {i j : Nat} (h : (m.getD i []).length ≤ j) :
    entryAt m i j = 0 := by
  unfold entryAt
  exact List.getD_eq_default _ _ h

lemma entryAt_mat_oob {m : MatL} {i : Nat} (h : m.length ≤ i) (j : Nat) :
    entryAt m i j = 0 := by
  unfold entryAt
  rw [List.getD_eq_default _ _ h]
  simp

lemma seedMat_length (n : Nat) (k : List Nat) : (seedMat n k).length = k.length :=
  List.length_map _ _

lemma seedMat_row (n : Nat) (k : List Nat) {r : Nat} (hr : r < k.length) :
    (seedMat n k).getD r [] = (List.range n).map (fun i => if i = k.getD r 0 then 1 else 0) := by
  unfold seedMat
  rw [List.getD_eq_getElem _ _ (by simpa using hr), List.getElem_map,
      List.getD_eq_getElem _ _ hr]

lemma seedMat_wellShaped (n : Nat) (k : List Nat) (hk : k.length = n) :
    wellShaped n (seedMat n k) := by
  refine ⟨(seedMat_length n k).trans hk, ?_⟩
  intro row hrow
  unfold seedMat at hrow
  obtain ⟨j, _, rfl⟩ := List.mem_map.mp hrow
  simp

lemma entryAt_seedMat (n : Nat) (k : List Nat) {r c : Nat} (hr : r < k.length) (hc : c < n) :
    entryAt (seedMat n k) r c = if c = k.getD r 0 then 1 else 0 := by
  unfold entryAt
  rw [seedMat_row n k hr,
      List.getD_eq_getElem _ _ (by simpa using hc), List.getElem_map, List.getElem_range]

lemma entryAt_seedMat_le_one (n : Nat) (k : List Nat) (i j : Nat) :
    entryAt (seedMat n k) i j ≤ 1 := by
  rcases Nat.lt_or_ge i k.length with hi | hi
  · rcases Nat.lt_or_ge j n with hj | hj
    · rw [entryAt_seedMat n k hi hj]
      split <;> omega
    · rw [entryAt_row_oob]
      · omega
      · rw [seedMat_row n k hi]
        simpa using hj
  · rw [entryAt_mat_oob (by simpa [seedMat_length] using hi) j]
    omega

lemma outDeg_seedMat (n : Nat) (k : List Nat) (hk : k.Perm (List.range n))
    {v : Nat} (hv : v < n) : outDeg (seedMat n k) v = 1 := by
  have hvk : v < k.length := by rw [hk.length_eq, List.length_range]; exact hv
  unfold outDeg
  rw [seedMat_row n k hvk, sum_map_ite_eq_count]
  have hmem : k.getD v 0 ∈ k := by
    rw [List.getD_eq_getElem _ _ hvk]
    exact List.getElem_mem hvk
  exact List.count_eq_one_of_mem (List.nodup_range n) (hk.mem_iff.mp hmem)

lemma inDeg_seedMat (n : Nat) (k : List Nat) (hk : k.Perm (List.range n))
    {v : Nat} (hv : v < n) : inDeg (seedMat n k) v = 1 := by
  have hlen : k.length = n := by rw [hk.length_eq, List.length_range]
  unfold inDeg
  have hrw : (List.range (seedMat n k).length).map (fun i => entryAt (seedMat n k) i v)
      = k.map (fun x => if v = x then 1 else 0) := by
    apply List.ext_getElem
    · simp [seedMat_length]
    · intro i h1 h2
      have hik : i < k.length := by simpa using h2
      rw [List.getElem_map, List.getElem_map, List.getElem_range,
          entryAt_seedMat n k hik hv, List.getD_eq_getElem _ _ hik]
  rw [hrw]
  have : (fun x => if v = x then 1 else 0) = (fun x => if x = v then 1 else 0) := by
    funext x
    by_cases hx : x = v
    · simp [hx]
    · have hvx : ¬ v = x := fun h => hx h.symm
      simp [hx, hvx]
  rw [this, sum_map_ite_eq_count]
  rw [hk.count_eq]
  exact List.count_eq_one_of_mem (List.nodup_range n) (List.mem_range.mpr hv)

lemma traceless_mem_permMatrix {n : Nat} {p : MatL} (hp : p ∈ traceless n) :
    isPermMatrix n p := by
  unfold traceless gFilter at hp
  obtain ⟨hmem, hkeep⟩ := List.mem_filter.mp hp
  obtain ⟨k, hk, rfl⟩ := List.mem_map.mp hmem
  have hperm : k.Perm (List.range n) := perm_of_mem_permsOf hk
  have hlen : k.length = n := by rw [hperm.length_eq, List.length_range]
  have hle : ∀ i j, entryAt (seedMat n k) i j ≤ 1 := entryAt_seedMat_le_one n k
  have hdiag : ∀ i, entryAt (seedMat n k) i i = 0 := by
    unfold gKeep at hkeep
    have hne := of_decide_eq_true hkeep
    intro i
    rcases Nat.lt_or_ge i (seedMat n k).length with hi | hi
    · have := hne i hi
      have := hle i i
      omega
    · exact entryAt_mat_oob hi i
  exact ⟨seedMat_wellShaped n k hlen, hle,
    fun v hv => ⟨outDeg_seedMat n k hperm hv, inDeg_seedMat n k hperm hv⟩, hdiag⟩

lemma matAdd_length (a b : MatL) : (matAdd a b).length = min a.length b.length := by
  unfold matAdd
  simp [List.length_zipWith]

lemma matAdd_row {a b : MatL} {n : Nat} (ha : wellShaped n a) (hb : wellShaped n b)
    {i : Nat} (hi : i < n) :
    (matAdd a b).getD i [] = List.zipWith (fun x y => x + y) (a.getD i []) (b.getD i []) := by
  have hia : i < a.length := ha.1 ▸ hi
  have hib : i < b.length := hb.1 ▸ hi
  have hlen : i < (matAdd a b).length := by
    rw [matAdd_length]
    omega
  unfold matAdd at hlen ⊢
  rw [List.getD_eq_getElem _ _ hlen, List.getElem_zipWith,
      List.getD_eq_getElem _ _ hia, List.getD_eq_getElem _ _ hib]

lemma matAdd_wellShaped {a b : MatL} {n : Nat} (ha : wellShaped n a) (hb : wellShaped n b) :
    wellShaped n (matAdd a b) := by
  constructor
  · rw [matAdd_length, ha.1, hb.1]
    omega
  · intro row hrow
    unfold matAdd at hrow
    rw [List.mem_iff_getElem] at hrow
    obtain ⟨i, hilen, hrow⟩ := hrow
    rw [List.getElem_zipWith] at hrow
    rw [List.length_zipWith] at hilen
    have hia : i < a.length := by omega
    have hib : i < b.length := by omega
    rw [← hrow, List.length_zipWith, ha.2 _ (List.getElem_mem hia),
        hb.2 _ (List.getElem_mem hib)]
    omega

lemma entryAt_matAdd {a b : MatL} {n : Nat} (ha : wellShaped n a) (hb : wellShaped n b)
    (i j : Nat) :
    entryAt (matAdd a b) i j = entryAt a i j + entryAt b i j := by
  rcases Nat.lt_or_ge i n with hi | hi
  · have hrowa : (a.getD i []).length = n :=
      ha.2 _ (List.getD_eq_getElem a [] (ha.1 ▸ hi) ▸ List.getElem_mem (ha.1 ▸ hi))
    have hrowb : (b.getD i []).length = n :=
      hb.2 _ (List.getD_eq_getElem b [] (hb.1 ▸ hi) ▸ List.getElem_mem (hb.1 ▸ hi))
    unfold entryAt
    rw [matAdd_row ha hb hi]
    rcases Nat.lt_or_ge j n with hj | hj
    · have hzl : j < (List.zipWith (fun x y => x + y) (a.getD i []) (b.getD i [])).length := by
        rw [List.length_zipWith, hrowa, hrowb]
        omega
      rw [List.getD_eq_getElem _ _ hzl, List.getElem_zipWith,
          List.getD_eq_getElem _ _ (by omega : j < (a.getD i []).length),
          List.getD_eq_getElem _ _ (by omega : j < (b.getD i []).length)]
    · rw [List.getD_eq_default _ _ (by rw [List.length_zipWith, hrowa, hrowb]; omega),
          List.getD_eq_default _ _ (by omega), List.getD_eq_default _ _ (by omega)]
  · rw [entryAt_mat_oob (by rw [matAdd_length, ha.1, hb.1]; omega) j,
        entryAt_mat_oob (ha.1 ▸ hi) j, entryAt_mat_oob (hb.1 ▸ hi) j]

lemma outDeg_matAdd {a b : MatL} {n : Nat} (ha : wellShaped n a) (hb : wellShaped n b)
    {v : Nat} (hv : v < n) :
    outDeg (matAdd a b) v = outDeg a v + outDeg b v := by
  have hrowa : (a.getD v []).length = n :=
    ha.2 _ (List.getD_eq_getElem a [] (ha.1 ▸ hv) ▸ List.getElem_mem (ha.1 ▸ hv))
  have hrowb : (b.getD v []).length = n :=
    hb.2 _ (List.getD_eq_getElem b [] (hb.1 ▸ hv) ▸ List.getElem_mem (hb.1 ▸ hv))
  unfold outDeg
  rw [matAdd_row ha hb hv, sum_zipWith_add _ _ (by omega)]

lemma inDeg_matAdd {a b : MatL} {n : Nat} (ha : wellShaped n a) (hb : wellShaped n b)
    {v : Nat} :
    inDeg (matAdd a b) v = inDeg a v + inDeg b v := by
  unfold inDeg
  rw [(matAdd_wellShaped ha hb).1, ha.1, hb.1]
  have : (List.range n).map (fun i => entryAt (matAdd a b) i v)
      = (List.range n).map (fun i => entryAt a i v + entryAt b i v) := by
    apply List.map_congr_left
    intro i _
    exact entryAt_matAdd ha hb i v
  rw [this, sum_map_add_distrib]

lemma mem_uniqKeepFirst {x : MatL} {l : List MatL} (h : x ∈ uniqKeepFirst l) : x ∈ l := by
  unfold uniqKeepFirst at h
  suffices haux : ∀ (acc : List MatL), x ∈ l.foldl
      (fun acc y => if y ∈ acc then acc else acc ++ [y]) acc → x ∈ acc ∨ x ∈ l by
    rcases haux [] h with hacc | hl
    · simp at hacc
    · exact hl
  clear h
  induction l with
  | nil => intro acc h; exact Or.inl h
  | cons y ys ih =>
    intro acc h
    simp only [List.foldl_cons] at h
    rcases ih _ h with hstep | hys
    · by_cases hy : y ∈ acc
      · rw [if_pos hy] at hstep
        exact Or.inl hstep
      · rw [if_neg hy] at hstep
        rcases List.mem_append.mp hstep with hacc | hx
        · exact Or.inl hacc
        · exact Or.inr (List.mem_cons.mpr (Or.inl (List.mem_singleton.mp hx)))
    · exact Or.inr (List.mem_cons.mpr (Or.inr hys))

lemma mem_cwrPairs {L : Nat} {c : Nat × Nat} (h : c ∈ cwrPairs L) : c.1 < L ∧ c.2 < L := by
  unfold cwrPairs at h
  obtain ⟨i, hi, hc⟩ := List.mem_flatMap.mp h
  obtain ⟨j, hj, rfl⟩ := List.mem_map.mp hc
  exact ⟨List.mem_range.mp hi, List.mem_range.mp (List.mem_of_mem_drop hj)⟩

lemma mem_diagram_generation {n : Nat} {m : MatL} (hm : m ∈ diagram_generation n) :
    ∃ p ∈ traceless n, ∃ q ∈ traceless n, m = matAdd p q := by
  unfold diagram_generation pyRevSorted at hm
  have hm2 := (List.perm_insertionSort _ _).mem_iff.mp hm
  have hm3 := mem_uniqKeepFirst hm2
  obtain ⟨c, hc, hadd⟩ := List.mem_map.mp hm3
  obtain ⟨h1, h2⟩ := mem_cwrPairs hc
  refine ⟨(traceless n).getD c.1 [], ?_, (traceless n).getD c.2 [], ?_, hadd.symm⟩
  · rw [List.getD_eq_getElem _ _ h1]
    exact List.getElem_mem h1
  · rw [List.getD_eq_getElem _ _ h2]
    exact List.getElem_mem h2

/-- C10: every adjacency matrix returned by the MBPT enumerator
`diagram_generation` is the element-wise sum of two matrices from the
traceless seed list, each of which is a zero-diagonal permutation matrix;
consequently the returned matrix is `n × n`, every vertex has in-degree and
out-degree exactly 2, every entry is at most 2, and the diagonal is zero. -/
theorem diagram_generation_structure (n : Nat) (m : MatL)
    (hm : m ∈ diagram_generation n) :
    (∃ p ∈ traceless n, ∃ q ∈ traceless n, m = matAdd p q)
      ∧ (∀ p ∈ traceless n, isPermMatrix n p)
      ∧ m.length = n
      ∧ (∀ v < n, outDeg m v = 2 ∧ inDeg m v = 2)
      ∧ (∀ i j, entryAt m i j ≤ 2)
      ∧ (∀ i, entryAt m i i = 0) := by
  obtain ⟨p, hp, q, hq, rfl⟩ := mem_diagram_generation hm
  have hpm := traceless_mem_permMatrix hp
  have hqm := traceless_mem_permMatrix hq
  obtain ⟨hpw, hple, hpdeg, hpdiag⟩ := hpm
  obtain ⟨hqw, hqle, hqdeg, hqdiag⟩ := hqm
  refine ⟨⟨p, hp, q, hq, rfl⟩, fun r hr => traceless_mem_permMatrix hr,
    by rw [matAdd_length, hpw.1, hqw.1]; omega, ?_, ?_, ?_⟩
  · intro v hv
    constructor
    · rw [outDeg_matAdd hpw hqw hv, (hpdeg v hv).1, (hqdeg v hv).1]
    · rw [inDeg_matAdd hpw hqw, (hpdeg v hv).2, (hqdeg v hv).2]
  · intro i j
    rw [entryAt_matAdd hpw hqw i j]
    have := hple i j
    have := hqle i j
    omega
  · intro i
    rw [entryAt_matAdd hpw hqw i i, hpdiag i, hqdiag i]

/-- Witness for C10: the single order-2 MBPT matrix is in the enumerator
output and indeed has in- and out-degree 2 at both vertices. -/
theorem diagram_generation_structure_witness :
    (∀ v < 2, outDeg [[0, 2], [2, 0]] v = 2 ∧ inDeg [[0, 2], [2, 0]] v = 2)
      ∧ (∀ i, entryAt [[0, 2], [2, 0]] i i = 0) :=
  ⟨(diagram_generation_structure 2 [[0, 2], [2, 0]] (by decide)).2.2.2.1,
   (diagram_generation_structure 2 [[0, 2], [2, 0]] (by decide)).2.2.2.2.2⟩

/-! ### adg.py BMBPT enumeration and classification (lines 136-236, 331-422)

`BMBPT_generation` builds the matrices incrementally: first the entries of
column 0 (one per vertex `i0 ≥ 1`, branching over every multiplicity that
keeps the committed degree of vertex 0 within `deg_max`), then for every
`vertex < sum_index` the two entries between the pair, pruning after each
vertex on the allowed degree set.  Afterwards `check_degree`, `no_loop`,
deduplication and the descending sort are applied.  The main script then
keeps the weakly connected diagrams, labels vertex 0 as the operator vertex
(when the norm kernel is not asked for) and collapses isomorphic diagrams,
finally bucketing them by maximal degree and canonicality. -/

/-- Empty `p × p` matrix. -/
def emptyMat (p : Nat) : MatL := List.replicate p (List.replicate p 0)

/-- Write value `v` at entry `(i, j)`. -/
def setEntry (m : MatL) (i j v : Nat) : MatL := m.set i ((m.getD i []).set j v)

/-- Branches setting entry `(i, j)` to every multiplicity `1..budget`. -/
def extendEntry (m : MatL) (i j budget : Nat) : List MatL :=
  (List.range budget).map (fun t => setEntry m i j (t + 1))

/-- Degree committed to vertex 0: `sum(mat[k][0] for k in range(1, p))`. -/
def j0Degree (m : MatL) (p : Nat) : Nat :=
  ((List.range' 1 (p - 1)).map (fun k => entryAt m k 0)).sum

/-- Vertex degree `sum(mat[k][v] + mat[v][k] for k in range(p))`. -/
def vertDegB (m : MatL) (p v : Nat) : Nat :=
  ((List.range p).map (fun k => entryAt m k v + entryAt m v k)).sum

/-- Allowed total degree: 2 or 4, plus 6 with three-body forces. -/
def allowedDegB (tb : Bool) (d : Nat) : Bool := (d == 2) || (d == 4) || (tb && d == 6)

/-- First enumeration phase of `BMBPT_generation`: fill column 0. -/
def bmbptPhase1 (dmax p : Nat) : List MatL :=
  (List.range' 1 (p - 1)).foldl
    (fun temp i0 =>
      temp.flatMap (fun mat => mat :: extendEntry mat i0 0 (dmax - j0Degree mat p)))
    [emptyMat p]

/-- Second enumeration phase of `BMBPT_generation`: for each vertex pair
`(vertex, sum_index)` with `vertex < sum_index`, branch over the two
directed entries (each only when the opposite entry is zero), then prune on
the current vertex's degree. -/
def bmbptPhase2 (dmax p : Nat) (tb : Bool) (start : List MatL) : List MatL :=
  (List.range' 1 (p - 1)).foldl
    (fun temp vertex =>
      ((List.range' (vertex + 1) (p - (vertex + 1))).foldl
        (fun temp2 sumIdx =>
          (temp2.flatMap (fun mat =>
            mat :: (if entryAt mat vertex sumIdx == 0
                    then extendEntry mat sumIdx vertex (dmax - vertDegB mat p vertex)
                    else []))).flatMap (fun mat =>
            mat :: (if entryAt mat sumIdx vertex == 0
                    then extendEntry mat vertex sumIdx (dmax - vertDegB mat p vertex)
                    else [])))
        temp).filter (fun m => allowedDegB tb (vertDegB m p vertex)))
    start

/-- adg.py `check_degree`: keep only matrices whose every vertex has an
allowed total degree (dimension read as `len(matrix[0])`). -/
def check_degree (tb : Bool) (matrices : List MatL) : List MatL :=
  matrices.filter (fun m => (List.range (dim0 m)).all
    (fun i => allowedDegB tb (vertDegB m (dim0 m) i)))

/-- adg.py `BMBPT_generation`. -/
def BMBPT_generation (p : Nat) (tb : Bool) : List MatL :=
  let dmax := if tb then 6 else 4
  let afterJ0 := (bmbptPhase1 dmax p).filter (fun m => allowedDegB tb (j0Degree m p))
  pyRevSorted (uniqKeepFirst (no_loop (check_degree tb (bmbptPhase2 dmax p tb afterJ0))))

/-- Isomorphism test used in the adg.py BMBPT reduction loop: a vertex
permutation matching all multiplicities, and — unless the norm kernel is
computed — matching the operator flag, which is true exactly at vertex 0. -/
def isoOpMat (p : Nat) (norm : Bool) (a b : MatL) : Prop :=
  ∃ f : Equiv.Perm (Fin p),
    (∀ i j : Fin p, entryAt a (f i) (f j) = entryAt b i j)
      ∧ (norm = false → ∀ i : Fin p, ((f i : Nat) = 0 ↔ (i : Nat) = 0))

instance (p : Nat) (norm : Bool) (a b : MatL) : Decidable (isoOpMat p norm a b) := by
  unfold isoOpMat; infer_instance

/-- adg.py BMBPT reduction loop (lines 341-364): a diagram is appended to the
kept list iff it is isomorphic to none of the diagrams already kept. -/
def isoReduceBmbpt (p : Nat) (norm : Bool) (gs : List MatL) : List MatL :=
  gs.foldl
    (fun acc d => if acc.any (fun g => decide (isoOpMat p norm d g)) then acc else acc ++ [d])
    []

/-- Weakly connected BMBPT diagrams, in enumeration order. -/
def bmbptConnected (p : Nat) (tb : Bool) : List MatL :=
  (BMBPT_generation p tb).filter weaklyConnected

/-- Distinct BMBPT diagrams after the isomorphism reduction. -/
def bmbptDistinct (p : Nat) (tb norm : Bool) : List MatL :=
  isoReduceBmbpt p norm (bmbptConnected p tb)

/-- Python `test_HF`: no vertex of degree 2. -/
def testHF (m : MatL) (p : Nat) : Bool :=
  (List.range p).all (fun v => vertDegB m p v != 2)

/-- Python `test_EHF`: no vertex other than 0 of degree 2. -/
def testEHF (m : MatL) (p : Nat) : Bool :=
  decide (∀ v < p, v ≠ 0 → vertDegB m p v ≠ 2)

/-- Maximal vertex degree of the diagram. -/
def maxDegB (m : MatL) (p : Nat) : Nat := ((List.range p).map (vertDegB m p)).foldl max 0

/-- Two-body bucket (`G2`): maximal degree not equal to 6. -/
def g2list (p : Nat) (tb norm : Bool) : List MatL :=
  (bmbptDistinct p tb norm).filter (fun m => maxDegB m p != 6)

/-- Three-body bucket (`G3`): maximal degree 6. -/
def g3list (p : Nat) (tb norm : Bool) : List MatL :=
  (bmbptDistinct p tb norm).filter (fun m => maxDegB m p == 6)

/-- Canonical-for-energy sub-bucket (`test_HF` holds). -/
def hfList (l : List MatL) (p : Nat) : List MatL := l.filter (fun m => testHF m p)

/-- Canonical-for-generic-operator sub-bucket (`test_HF` fails, `test_EHF`
holds and the norm kernel is not computed). -/
def ehfList (l : List MatL) (p : Nat) (norm : Bool) : List MatL :=
  l.filter (fun m => !testHF m p && (testEHF m p && !norm))

/-- Non-canonical sub-bucket. -/
def noHfList (l : List MatL) (p : Nat) (norm : Bool) : List MatL :=
  l.filter (fun m => !testHF m p && (!testEHF m p || norm))

/-- Final ordered output `G2_HF + G2_EHF + G2_noHF + G3_HF + G3_EHF + G3_noHF`. -/
def bmbptFinal (p : Nat) (tb norm : Bool) : List MatL :=
  hfList (g2list p tb norm) p ++ ehfList (g2list p tb norm) p norm
    ++ noHfList (g2list p tb norm) p norm ++ hfList (g3list p tb norm) p
    ++ ehfList (g3list p tb norm) p norm ++ noHfList (g3list p tb norm) p norm

/-- C6: at order 2 with theory BMBPT, three-body forces disabled and norm
kernel disabled, the pipeline outputs exactly 2 distinct diagrams:
`[[0,0],[4,0]]` (classified canonical-for-energy) and `[[0,0],[2,0]]`
(classified non-canonical); no diagram is canonical-for-generic-operator and
no three-body diagram appears. -/
theorem bmbpt_order2_classification :
    bmbptDistinct 2 false false = [[[0, 0], [4, 0]], [[0, 0], [2, 0]]]
      ∧ (bmbptDistinct 2 false false).length = 2
      ∧ hfList (g2list 2 false false) 2 = [[[0, 0], [4, 0]]]
      ∧ ehfList (g2list 2 false false) 2 false = []
      ∧ noHfList (g2list 2 false false) 2 false = [[[0, 0], [2, 0]]]
      ∧ g3list 2 false false = []
      ∧ bmbptFinal 2 false false = [[[0, 0], [4, 0]], [[0, 0], [2, 0]]] := by
  exact ⟨by decide, by decide, by decide, by decide, by decide, by decide, by decide⟩

/-! ### Vertex labelling (adg/diag.py lines 171-183, methods.py lines 92-98)

The graphs' vertex attributes are modelled by their per-vertex operator-flag
lists.  diag.py guards the flag assignment with the Python expression
`theory_type == "BMBPT" or "PBMBPT"`, which is the disjunction of the string
comparison with the truthiness of the literal `"PBMBPT"` — a non-empty string,
hence always true.  methods.py guards it with
`(theory_type == "BMBPT") and not study_norm`. -/

/-- Truthiness of a Python string: non-empty strings are truthy. -/
def pyTruthy (s : String) : Bool := s ≠ ""

/-- diag.py `label_vertices`: clear all operator flags, then set vertex 0's
flag under the (always true) condition `theory_type == "BMBPT" or "PBMBPT"`. -/
def label_vertices (theory_type : String) (graphs_list : List (List Bool)) :
    List (List Bool) :=
  graphs_list.map (fun g =>
    let cleared := g.map (fun _ => false)
    if (theory_type == "BMBPT") || pyTruthy "PBMBPT" then cleared.set 0 true else cleared)

/-- methods.py `label_vertices`: clear all operator flags, then set vertex 0's
flag only for BMBPT with the norm study disabled. -/
def label_vertices_methods (theory_type : String) (study_norm : Bool)
    (diagrams_list : List (List Bool)) : List (List Bool) :=
  diagrams_list.map (fun g =>
    let cleared := g.map (fun _ => false)
    if (theory_type == "BMBPT") && !study_norm then cleared.set 0 true else cleared)

/-- C7 (code bug): diag.py `label_vertices` sets the operator flag of vertex 0
even for an MBPT graph, because `theory_type == "BMBPT" or "PBMBPT"` is
always truthy in Python; the claimed behaviour — flag vertex 0 exactly for
BMBPT/PBMBPT with norm-kernel mode off, all other flags false — is what the
parallel implementation in methods.py computes. -/
theorem label_vertices_flags_vertex0_for_mbpt :
    label_vertices "MBPT" [[false, false]] = [[true, false]]
      ∧ label_vertices_methods "MBPT" false [[false, false]] = [[false, false]]
      ∧ label_vertices_methods "BMBPT" false [[false, false]] = [[true, false]]
      ∧ label_vertices_methods "BMBPT" true [[false, false]] = [[false, false]] := by
  exact ⟨by decide, by decide, by decide, by decide⟩

/-! ### Attributed diagrams and the isomorphism canonicalizer
(adg/diag.py lines 80-168 and 533-566)

A networkx MultiDiGraph with vertex operator flags and per-edge anomalous
flags is determined by, for each ordered vertex pair, the multiplicity of its
normal and of its anomalous parallel propagators, plus the per-vertex flags;
we store those.  `categorical_node_match('operator', False)` and
`categorical_multiedge_match('anomalous', False)` default missing attributes
to false, as `getD` does here.  `Diagram.__init__` caches `io_degrees`, the
ascendingly sorted tuple of (in-degree, out-degree) pairs; tags start at `[0]`
and are renumbered by the caller. -/

/-- Attributed multigraph on `n` vertices. -/
structure AGraph (n : Nat) where
  normal : MatL
  anom : MatL
  op : List Bool
deriving DecidableEq

/-- Operator flag of a vertex (false when absent). -/
def opAt {n : Nat} (g : AGraph n) (i : Nat) : Bool := g.op.getD i false

/-- Total multiplicity of parallel edges from `i` to `j`: anomalous
propagators are ordinary edges of the multigraph carrying an attribute. -/
def totalMul {n : Nat} (g : AGraph n) (i j : Nat) : Nat :=
  entryAt g.normal i j + entryAt g.anom i j

/-- In-degree of a vertex of the multigraph. -/
def inDegA {n : Nat} (g : AGraph n) (i : Fin n) : Nat :=
  ((List.finRange n).map (fun j : Fin n => totalMul g (j : Nat) (i : Nat))).sum

/-- Out-degree of a vertex of the multigraph. -/
def outDegA {n : Nat} (g : AGraph n) (i : Fin n) : Nat :=
  ((List.finRange n).map (fun j : Fin n => totalMul g (i : Nat) (j : Nat))).sum

/-- Unsorted (in, out) degree pairs (`unsort_io_degrees`). -/
def ioPairs {n : Nat} (g : AGraph n) : List (Nat × Nat) :=
  (List.finRange n).map (fun i => (inDegA g i, outDegA g i))

/-- Python tuple comparison on (in, out) pairs. -/
def pairLe (x y : Nat × Nat) : Prop := x.1 < y.1 ∨ (x.1 = y.1 ∧ x.2 ≤ y.2)

instance : DecidableRel pairLe := fun x y => by unfold pairLe; infer_instance

instance : IsTotal (Nat × Nat) pairLe :=
  ⟨fun x y => by unfold pairLe; omega⟩

instance : IsTrans (Nat × Nat) pairLe :=
  ⟨fun x y z hxy hyz => by unfold pairLe at *; omega⟩

instance : IsAntisymm (Nat × Nat) pairLe :=
  ⟨fun x y hxy hyx => by
    unfold pairLe at *
    have h1 : x.1 = y.1 := by omega
    have h2 : x.2 = y.2 := by omega
    exact Prod.ext h1 h2⟩

/-- `Diagram.io_degrees`: the sorted version of the degree pairs. -/
def io_degrees {n : Nat} (g : AGraph n) : List (Nat × Nat) :=
  List.insertionSort pairLe (ioPairs g)

/-- diag.py `Diagram`: the graph together with its tag list. -/
structure Diagram (n : Nat) where
  graph : AGraph n
  tags : List Nat
deriving DecidableEq

/-- Attributed isomorphism used for non-PBMBPT diagrams (DiGraphMatcher with
`categorical_node_match('operator', False)` and no edge match): a vertex
permutation preserving operator flags and all parallel-edge multiplicities. -/
def isoOp {n : Nat} (a b : AGraph n) : Prop :=
  ∃ f : Equiv.Perm (Fin n),
    (∀ i : Fin n, opAt a (f i) = opAt b i)
      ∧ ∀ i j : Fin n, totalMul a (f i) (f j) = totalMul b i j

instance {n : Nat} (a b : AGraph n) : Decidable (isoOp a b) := by
  unfold isoOp; infer_instance

/-- Anomalous multiplicity in the doubled graph built by
`create_checkable_diagram`: every anomalous propagator between two distinct
vertices is also added in the reverse direction; anomalous self-loops are
left alone. -/
def dAnom {n : Nat} (g : AGraph n) (i j : Fin n) : Nat :=
  if i = j then entryAt g.anom i i else entryAt g.anom i j + entryAt g.anom j i

/-- Attributed isomorphism used for PBMBPT diagrams (DiGraphMatcher on the
doubled graphs with `categorical_multiedge_match('anomalous', False)`): a
vertex permutation preserving operator flags and, between every matched pair,
the multiplicities of normal and of doubled anomalous propagators. -/
def isoPb {n : Nat} (a b : AGraph n) : Prop :=
  ∃ f : Equiv.Perm (Fin n),
    (∀ i : Fin n, opAt a (f i) = opAt b i)
      ∧ ∀ i j : Fin n, entryAt a.normal (f i) (f j) = entryAt b.normal i j
          ∧ dAnom a (f i) (f j) = dAnom b i j

instance {n : Nat} (a b : AGraph n) : Decidable (isoPb a b) := by
  unfold isoPb; infer_instance

/-- Scan a list for the occurrence of `p` closest to the far end, returning
the found element and the list with it removed. -/
def scanRemove {α : Type} (p : α → Bool) : List α → Option (α × List α)
  | [] => none
  | y :: ys =>
    match scanRemove p ys with
    | some (z, ys') => some (z, y :: ys')
    | none => if p y then some (y, ys) else none

/-- diag.py `topologically_distinct_diagrams`, parameterised by the matcher
`m`.  The Python outer loop walks the indices from the last one downwards, so
the head of the list is treated after the reduction of its tail; the inner
loop scans the already-reduced tail starting at its last index, and on the
first diagram with identical `io_degrees` accepted by the matcher it appends
that diagram's tags to the current one, deletes it, and stops. -/
def topologically_distinct {n : Nat} (m : AGraph n → AGraph n → Prop)
    [DecidableRel m] : List (Diagram n) → List (Diagram n)
  | [] => []
  | x :: rest =>
    let rest' := topologically_distinct m rest
    match scanRemove (fun y =>
        decide (io_degrees x.graph = io_degrees y.graph ∧ m x.graph y.graph)) rest' with
    | some (y, rest'') => ⟨x.graph, x.tags ++ y.tags⟩ :: rest''
    | none => x :: rest'

lemma scanRemove_eq_none {α : Type} {p : α → Bool} {l : List α}
    (h : scanRemove p l = none) : ∀ y ∈ l, p y = false := by
  induction l with
  | nil => intro y hy; cases hy
  | cons z zs ih =>
    intro y hy
    unfold scanRemove at h
    rcases hsr : scanRemove p zs with _ | pr
    · rw [hsr] at h
      by_cases hz : p z = true
      · rw [if_pos hz] at h
        cases h
      · rcases List.mem_cons.mp hy with rfl | hmem
        · exact Bool.eq_false_iff.mpr hz
        · exact ih hsr y hmem
    · rw [hsr] at h
      cases h

lemma scanRemove_none_of_all {α : Type} {p : α → Bool} {l : List α}
    (h : ∀ y ∈ l, p y = false) : scanRemove p l = none := by
  induction l with
  | nil => rfl
  | cons z zs ih =>
    unfold scanRemove
    rw [ih (fun y hy => h y (List.mem_cons_of_mem z hy))]
    simp only [h z (List.mem_cons_self z zs), Bool.false_eq_true, if_false]

lemma scanRemove_eq_some {α : Type} {p : α → Bool} {l l' : List α} {y : α}
    (h : scanRemove p l = some (y, l')) :
    ∃ pre post, l = pre ++ y :: post ∧ l' = pre ++ post ∧ p y = true := by
  induction l generalizing l' with
  | nil => cases h
  | cons z zs ih =>
    unfold scanRemove at h
    rcases hsr : scanRemove p zs with _ | pr
    · rw [hsr] at h
      by_cases hz : p z = true
      · rw [if_pos hz] at h
        injection h with h
        injection h with h1 h2
        subst h1
        subst h2
        exact ⟨[], zs, rfl, rfl, hz⟩
      · rw [if_neg hz] at h
        cases h
    · rw [hsr] at h
      injection h with h
      obtain ⟨z1, zs1⟩ := pr
      injection h with h1 h2
      subst h1
      obtain ⟨pre, post, hzs, hzs1, hp⟩ := ih hsr
      refine ⟨z :: pre, post, by rw [hzs]; rfl, ?_, hp⟩
      rw [← h2, hzs1]
      rfl

/-- The match condition used in the reduction: equal cached signatures plus
matcher acceptance. -/
def matchCond {n : Nat} (m : AGraph n → AGraph n → Prop) (a b : Diagram n) : Prop :=
  io_degrees a.graph = io_degrees b.graph ∧ m a.graph b.graph

lemma topologically_distinct_pairwise {n : Nat} (m : AGraph n → AGraph n → Prop)
    [DecidableRel m]
    (hsym : ∀ a b : AGraph n, m a b → m b a)
    (htrans : ∀ a b c : AGraph n, m a b → m b c → m a c)
    (l : List (Diagram n)) :
    List.Pairwise (fun a b => ¬ matchCond m a b) (topologically_distinct m l) := by
  have hmsym : ∀ a b : Diagram n, matchCond m a b → matchCond m b a :=
    fun a b hab => ⟨hab.1.symm, hsym _ _ hab.2⟩
  induction l with
  | nil => exact List.Pairwise.nil
  | cons x rest ih =>
    unfold topologically_distinct
    rcases hsr : scanRemove (fun y =>
        decide (io_degrees x.graph = io_degrees y.graph ∧ m x.graph y.graph))
        (topologically_distinct m rest) with _ | pr
    · simp only [hsr]
      refine List.Pairwise.cons ?_ ih
      intro y hy
      have h0 := of_decide_eq_false (scanRemove_eq_none hsr y hy)
      exact fun hc => h0 hc
    · obtain ⟨y, rest''⟩ := pr
      simp only [hsr]
      obtain ⟨pre, post, hsplit, hrest'', hpy⟩ := scanRemove_eq_some hsr
      have hxy0 := of_decide_eq_true hpy
      have hxy : matchCond m x y := hxy0
      have hpwrest' := ih
      rw [hsplit] at hpwrest'
      rw [List.pairwise_append] at hpwrest'
      obtain ⟨hpre, hypost, hcross⟩ := hpwrest'
      refine List.Pairwise.cons ?_ ?_
      · intro z hz
        rw [hrest''] at hz
        intro hmz
        have hmxz : matchCond m x z := ⟨hmz.1, hmz.2⟩
        have hyz : matchCond m y z :=
          ⟨hxy.1.symm.trans hmxz.1, htrans _ _ _ (hsym _ _ hxy.2) hmxz.2⟩
        rcases List.mem_append.mp hz with hzpre | hzpost
        · exact hcross z hzpre y (List.mem_cons_self y post) (hmsym _ _ hyz)
        · exact (List.pairwise_cons.mp hypost).1 z hzpost hyz
      · rw [hrest'']
        rw [hsplit] at ih
        refine List.Pairwise.sublist ?_ ih
        exact List.Sublist.append_left (List.sublist_cons_self y post) pre

lemma topologically_distinct_of_pairwise {n : Nat} (m : AGraph n → AGraph n → Prop)
    [DecidableRel m] (l : List (Diagram n))
    (h : List.Pairwise (fun a b => ¬ matchCond m a b) l) :
    topologically_distinct m l = l := by
  induction l with
  | nil => rfl
  | cons x rest ih =>
    obtain ⟨hhead, htail⟩ := List.pairwise_cons.mp h
    have hnone : scanRemove (fun y =>
        decide (io_degrees x.graph = io_degrees y.graph ∧ m x.graph y.graph))
        rest = none := by
      apply scanRemove_none_of_all
      intro y hy
      exact decide_eq_false (fun hc => hhead y hy ⟨hc.1, hc.2⟩)
    unfold topologically_distinct
    simp only [ih htail, hnone]

/-- Multiset of all tags carried by a list of diagrams. -/
def totalTags {n : Nat} (l : List (Diagram n)) : Multiset Nat :=
  (l.map (fun d => (d.tags : Multiset Nat))).sum

lemma totalTags_append {n : Nat} (l1 l2 : List (Diagram n)) :
    totalTags (l1 ++ l2) = totalTags l1 + totalTags l2 := by
  unfold totalTags
  rw [List.map_append, List.sum_append]

lemma totalTags_cons {n : Nat} (d : Diagram n) (l : List (Diagram n)) :
    totalTags (d :: l) = (d.tags : Multiset Nat) + totalTags l := by
  unfold totalTags
  rw [List.map_cons, List.sum_cons]

lemma topologically_distinct_tags {n : Nat} (m : AGraph n → AGraph n → Prop)
    [DecidableRel m] (l : List (Diagram n)) :
    totalTags (topologically_distinct m l) = totalTags l := by
  induction l with
  | nil => rfl
  | cons x rest ih =>
    unfold topologically_distinct
    rcases hsr : scanRemove (fun y =>
        decide (io_degrees x.graph = io_degrees y.graph ∧ m x.graph y.graph))
        (topologically_distinct m rest) with _ | pr
    · simp only [hsr]
      rw [totalTags_cons, totalTags_cons, ih]
    · obtain ⟨y, rest''⟩ := pr
      simp only [hsr]
      obtain ⟨pre, post, hsplit, hrest'', hpy⟩ := scanRemove_eq_some hsr
      have hrest : totalTags (topologically_distinct m rest) = totalTags rest := ih
      rw [hsplit, totalTags_append, totalTags_cons] at hrest
      rw [totalTags_cons, hrest'', totalTags_append, totalTags_cons, ← hrest]
      have hsplitTags : ((x.tags ++ y.tags : List Nat) : Multiset Nat)
          = (x.tags : Multiset Nat) + (y.tags : Multiset Nat) := by
        simp
      rw [hsplitTags]
      abel

lemma isoOp_symm {n : Nat} {a b : AGraph n} (h : isoOp a b) : isoOp b a := by
  obtain ⟨f, hop, hmul⟩ := h
  refine ⟨f.symm, fun i => ?_, fun i j => ?_⟩
  · have h0 := hop (f.symm i)
    rw [Equiv.apply_symm_apply] at h0
    exact h0.symm
  · have h0 := hmul (f.symm i) (f.symm j)
    rw [Equiv.apply_symm_apply, Equiv.apply_symm_apply] at h0
    exact h0.symm

lemma isoOp_trans {n : Nat} {a b c : AGraph n} (hab : isoOp a b) (hbc : isoOp b c) :
    isoOp a c := by
  obtain ⟨f, hopf, hmulf⟩ := hab
  obtain ⟨g, hopg, hmulg⟩ := hbc
  refine ⟨g.trans f, fun i => ?_, fun i j => ?_⟩
  · show opAt a (f (g i)) = opAt c i
    rw [hopf (g i), hopg i]
  · show totalMul a (f (g i)) (f (g j)) = totalMul c i j
    rw [hmulf (g i) (g j), hmulg i j]

lemma isoPb_symm {n : Nat} {a b : AGraph n} (h : isoPb a b) : isoPb b a := by
  obtain ⟨f, hop, hmul⟩ := h
  refine ⟨f.symm, fun i => ?_, fun i j => ?_⟩
  · have h0 := hop (f.symm i)
    rw [Equiv.apply_symm_apply] at h0
    exact h0.symm
  · have h0 := hmul (f.symm i) (f.symm j)
    rw [Equiv.apply_symm_apply, Equiv.apply_symm_apply] at h0
    exact ⟨h0.1.symm, h0.2.symm⟩

lemma isoPb_trans {n : Nat} {a b c : AGraph n} (hab : isoPb a b) (hbc : isoPb b c) :
    isoPb a c := by
  obtain ⟨f, hopf, hmulf⟩ := hab
  obtain ⟨g, hopg, hmulg⟩ := hbc
  refine ⟨g.trans f, fun i => ?_, fun i j => ?_⟩
  · show opAt a (f (g i)) = opAt c i
    rw [hopf (g i), hopg i]
  · constructor
    · show entryAt a.normal (f (g i)) (f (g j)) = entryAt c.normal i j
      rw [(hmulf (g i) (g j)).1, (hmulg i j).1]
    · show dAnom a (f (g i)) (f (g j)) = dAnom c i j
      rw [(hmulf (g i) (g j)).2, (hmulg i j).2]

lemma map_perm_finRange {n : Nat} (f : Equiv.Perm (Fin n)) :
    ((List.finRange n).map f).Perm (List.finRange n) := by
  apply List.perm_of_nodup_nodup_toFinset_eq
  · exact (List.nodup_finRange n).map f.injective
  · exact List.nodup_finRange n
  · ext x
    simp only [List.mem_toFinset, List.mem_map, List.mem_finRange, true_and, iff_true]
    exact ⟨f.symm x, f.apply_symm_apply x⟩

lemma sum_map_comp_perm {n : Nat} (f : Equiv.Perm (Fin n)) (t : Fin n → Nat) :
    ((List.finRange n).map (fun j => t (f j))).sum = ((List.finRange n).map t).sum := by
  have h : ((List.finRange n).map (fun j => t (f j))) = ((List.finRange n).map f).map t := by
    rw [List.map_map]
    rfl
  rw [h]
  exact List.Perm.sum_eq ((map_perm_finRange f).map t)

lemma inDegA_isoOp {n : Nat} {a b : AGraph n} (f : Equiv.Perm (Fin n))
    (hmul : ∀ i j : Fin n, totalMul a (f i) (f j) = totalMul b i j) (i : Fin n) :
    inDegA b i = inDegA a (f i) := by
  unfold inDegA
  have h : (List.finRange n).map (fun j : Fin n => totalMul b (j : Nat) (i : Nat))
      = (List.finRange n).map (fun j : Fin n => totalMul a ((f j) : Nat) ((f i) : Nat)) :=
    List.map_congr_left fun j _ => (hmul j i).symm
  rw [h]
  exact sum_map_comp_perm f (fun j : Fin n => totalMul a (j : Nat) ((f i) : Nat))

lemma outDegA_isoOp {n : Nat} {a b : AGraph n} (f : Equiv.Perm (Fin n))
    (hmul : ∀ i j : Fin n, totalMul a (f i) (f j) = totalMul b i j) (i : Fin n) :
    outDegA b i = outDegA a (f i) := by
  unfold outDegA
  have h : (List.finRange n).map (fun j : Fin n => totalMul b (i : Nat) (j : Nat))
      = (List.finRange n).map (fun j : Fin n => totalMul a ((f i) : Nat) ((f j) : Nat)) :=
    List.map_congr_left fun j _ => (hmul i j).symm
  rw [h]
  exact sum_map_comp_perm f (fun j : Fin n => totalMul a ((f i) : Nat) (j : Nat))

lemma io_degrees_eq_of_isoOp {n : Nat} {a b : AGraph n} (h : isoOp a b) :
    io_degrees a = io_degrees b := by
  obtain ⟨f, hop, hmul⟩ := h
  have hpairs : (ioPairs b).Perm (ioPairs a) := by
    have heq : ioPairs b
        = ((List.finRange n).map f).map (fun u => (inDegA a u, outDegA a u)) := by
      rw [List.map_map]
      apply List.map_congr_left
      intro i _
      show (inDegA b i, outDegA b i) = (inDegA a (f i), outDegA a (f i))
      rw [inDegA_isoOp f hmul i, outDegA_isoOp f hmul i]
    rw [heq]
    exact (map_perm_finRange f).map _
  unfold io_degrees
  refine List.eq_of_perm_of_sorted (r := pairLe) ?_
    (List.sorted_insertionSort pairLe _) (List.sorted_insertionSort pairLe _)
  exact (List.perm_insertionSort pairLe (ioPairs a)).trans
    (hpairs.symm.trans (List.perm_insertionSort pairLe (ioPairs b)).symm)

/-- C1 (amended): after the canonicalizer runs on any finite list of
diagrams: with the non-PBMBPT matcher (operator flags on vertices) no two
retained diagrams are isomorphic, and a second run returns the list
unchanged; with the PBMBPT matcher (anomalous flags matched on the doubled
graphs) no two retained diagrams *with equal io-degree signatures* are
isomorphic — the restriction is forced because the io-degree prefilter is not
invariant under doubled-graph matching — and a second run is again a no-op. -/
theorem topologically_distinct_correct {n : Nat} (l : List (Diagram n)) :
    List.Pairwise (fun a b => ¬ isoOp a.graph b.graph) (topologically_distinct isoOp l)
      ∧ topologically_distinct isoOp (topologically_distinct isoOp l)
          = topologically_distinct isoOp l
      ∧ List.Pairwise (fun a b =>
            io_degrees a.graph = io_degrees b.graph → ¬ isoPb a.graph b.graph)
          (topologically_distinct isoPb l)
      ∧ topologically_distinct isoPb (topologically_distinct isoPb l)
          = topologically_distinct isoPb l := by
  have hOp := topologically_distinct_pairwise isoOp
    (fun a b h => isoOp_symm h) (fun a b c h1 h2 => isoOp_trans h1 h2) l
  have hPb := topologically_distinct_pairwise isoPb
    (fun a b h => isoPb_symm h) (fun a b c h1 h2 => isoPb_trans h1 h2) l
  refine ⟨?_, ?_, ?_, ?_⟩
  · exact hOp.imp (fun h hiso => h ⟨io_degrees_eq_of_isoOp hiso, hiso⟩)
  · exact topologically_distinct_of_pairwise isoOp _ hOp
  · exact hPb.imp (fun h hsig hiso => h ⟨hsig, hiso⟩)
  · exact topologically_distinct_of_pairwise isoPb _ hPb

/-- First PBMBPT-style counterexample graph: one normal and one anomalous
propagator, both from vertex 0 to vertex 1; vertex 0 is the operator. -/
def pbGraphA : AGraph 2 := ⟨[[0, 1], [0, 0]], [[0, 1], [0, 0]], [true, false]⟩

/-- Second PBMBPT-style counterexample graph: the same normal propagator, the
anomalous propagator stored in the opposite direction. -/
def pbGraphB : AGraph 2 := ⟨[[0, 1], [0, 0]], [[0, 0], [1, 0]], [true, false]⟩

/-- C1 counterexample: the two graphs are isomorphic under the PBMBPT
attributed matching rule (the doubled anomalous propagators coincide, and the
identity matches operator flags), yet their io-degree signatures differ
because the anomalous line is stored in opposite directions; the signature
prefilter therefore skips the pair and the canonicalizer retains both
diagrams. -/
theorem topologically_distinct_retains_isomorphic_pbmbpt_pair :
    topologically_distinct isoPb [⟨pbGraphA, [0]⟩, ⟨pbGraphB, [1]⟩]
        = [⟨pbGraphA, [0]⟩, ⟨pbGraphB, [1]⟩]
      ∧ isoPb pbGraphA pbGraphB
      ∧ io_degrees pbGraphA ≠ io_degrees pbGraphB := by
  refine ⟨by decide, ⟨Equiv.refl (Fin 2), by decide⟩, by decide⟩

lemma card_totalTags {n : Nat} (l : List (Diagram n)) :
    Multiset.card (totalTags l) = (l.map (fun d => d.tags.length)).sum := by
  induction l with
  | nil => rfl
  | cons d rest ih =>
    rw [totalTags_cons, Multiset.card_add, ih, List.map_cons, List.sum_cons,
        Multiset.coe_card]

lemma sum_ones_of_all {n : Nat} (l : List (Diagram n))
    (h : ∀ d ∈ l, d.tags.length = 1) :
    (l.map (fun d => d.tags.length)).sum = l.length := by
  induction l with
  | nil => rfl
  | cons d rest ih =>
    rw [List.map_cons, List.sum_cons, h d (List.mem_cons_self d rest),
        ih (fun e he => h e (List.mem_cons_of_mem d he)), List.length_cons]
    omega

/-- C2: the canonicalizer conserves tags: the multiset of all tags is
unchanged by the reduction (each merge appends the discarded diagram's tags
to the surviving representative, so no tag is lost or duplicated), and when
every input diagram carries exactly one tag the total tag count of the output
equals the number of input diagrams — for both the PBMBPT and the
non-PBMBPT matcher. -/
theorem topologically_distinct_tag_conservation {n : Nat} (l : List (Diagram n))
    (h1 : ∀ d ∈ l, d.tags.length = 1) :
    totalTags (topologically_distinct isoPb l) = totalTags l
      ∧ ((topologically_distinct isoPb l).map (fun d => d.tags.length)).sum = l.length
      ∧ totalTags (topologically_distinct isoOp l) = totalTags l
      ∧ ((topologically_distinct isoOp l).map (fun d => d.tags.length)).sum = l.length := by
  have hpb := topologically_distinct_tags isoPb l
  have hop := topologically_distinct_tags isoOp l
  have hcount : Multiset.card (totalTags l) = l.length := by
    rw [card_totalTags, sum_ones_of_all l h1]
  refine ⟨hpb, ?_, hop, ?_⟩
  · rw [← card_totalTags, hpb, hcount]
  · rw [← card_totalTags, hop, hcount]

/-- First graph of the tag-conservation witness: two parallel propagators
from vertex 0 to vertex 1, no operator vertex. -/
def opGraphA : AGraph 2 := ⟨[[0, 2], [0, 0]], [[0, 0], [0, 0]], [false, false]⟩

/-- Second graph of the tag-conservation witness: the same two propagators in
the opposite direction (isomorphic to the first by swapping the vertices). -/
def opGraphB : AGraph 2 := ⟨[[0, 0], [2, 0]], [[0, 0], [0, 0]], [false, false]⟩

/-- Witness for C2: on two isomorphic one-tag diagrams the canonicalizer
merges them and both tags survive on the representative. -/
theorem topologically_distinct_tag_conservation_witness :
    totalTags (topologically_distinct isoOp [⟨opGraphA, [0]⟩, ⟨opGraphB, [1]⟩])
        = totalTags [⟨opGraphA, [0]⟩, ⟨opGraphB, [1]⟩]
      ∧ ((topologically_distinct isoOp [⟨opGraphA, [0]⟩, ⟨opGraphB, [1]⟩]).map
          (fun d => d.tags.length)).sum = 2 :=
  ⟨(topologically_distinct_tag_conservation
      [⟨opGraphA, [0]⟩, ⟨opGraphB, [1]⟩] (by decide)).2.2.1,
   (topologically_distinct_tag_conservation
      [⟨opGraphA, [0]⟩, ⟨opGraphB, [1]⟩] (by decide)).2.2.2⟩

/-! ### Plain-text dump of the adjacency matrices (adg/diag.py lines 516-530)

`print_adj_matrices` writes, for each diagram, a header line
`"Diagram n: %i"` (indices starting at 1), then the adjacency matrix via
`numpy.savetxt` with format `%d`: one row per line, entries separated by
single spaces, then a blank separator line.  The file content is modelled as
its list of lines, each line a list of characters. -/

/-- Decimal digit character (`%d` for a single digit; callers only pass
values below 10). -/
def digitChar10 (d : Nat) : Char :=
  if d = 0 then '0' else if d = 1 then '1' else if d = 2 then '2'
  else if d = 3 then '3' else if d = 4 then '4' else if d = 5 then '5'
  else if d = 6 then '6' else if d = 7 then '7' else if d = 8 then '8' else '9'

/-- Decimal representation of a natural number (`%d`). -/
def natChars (k : Nat) : List Char :=
  if k < 10 then [digitChar10 k]
  else natChars (k / 10) ++ [digitChar10 (k % 10)]
decreasing_by exact Nat.div_lt_self (by omega) (by omega)

/-- Parse a decimal token back to a natural number. -/
def parseNatChars (cs : List Char) : Nat :=
  cs.foldl (fun a c => a * 10 + (c.toNat - 48)) 0

/-- Single-space separated concatenation of tokens. -/
def joinTokens : List (List Char) → List Char
  | [] => []
  | [t] => t
  | t :: ts => t ++ ' ' :: joinTokens ts

/-- Split a line at every space character. -/
def splitSp : List Char → List (List Char)
  | [] => [[]]
  | c :: cs =>
    match splitSp cs with
    | [] => [[]]
    | t :: ts => if c = ' ' then [] :: t :: ts else (c :: t) :: ts

/-- One matrix row as a line: `%d`-formatted entries joined by spaces. -/
def rowLine (row : List Nat) : List Char := joinTokens (row.map natChars)

/-- Parse one line back into a row of naturals. -/
def parseRow (cs : List Char) : List Nat := (splitSp cs).map parseNatChars

/-- The header line of a block: `Diagram n: ` followed by the index. -/
def headerLine (idx : Nat) : List Char :=
  'D' :: 'i' :: 'a' :: 'g' :: 'r' :: 'a' :: 'm' :: ' ' :: 'n' :: ':' :: ' ' :: natChars idx

/-- The block written for one diagram: header line, one line per matrix row,
and a blank separator line. -/
def diagBlock (idx : Nat) (m : MatL) : List (List Char) :=
  headerLine idx :: m.map rowLine ++ [[]]

/-- The dump loop, carrying the 1-based index. -/
def dumpFrom (idx : Nat) : List MatL → List (List Char)
  | [] => []
  | m :: rest => diagBlock idx m ++ dumpFrom (idx + 1) rest

/-- diag.py `print_adj_matrices`: one block per diagram, 1-based indices. -/
def print_adj_matrices (diagrams : List MatL) : List (List Char) :=
  dumpFrom 1 diagrams

/-- Parse one diagram's matrix block: skip the header line, then read rows
until the blank separator line. -/
def parseBlock (lines : List (List Char)) : MatL :=
  ((lines.drop 1).takeWhile (fun l => decide (l ≠ []))).map parseRow

lemma digitChar10_toNat {d : Nat} (h : d < 10) : (digitChar10 d).toNat = 48 + d := by
  interval_cases d <;> rfl

lemma digitChar10_ne_space {d : Nat} (h : d < 10) : digitChar10 d ≠ ' ' := by
  interval_cases d <;> decide

lemma natChars_ne_nil (k : Nat) : natChars k ≠ [] := by
  rw [natChars]
  split
  · exact List.cons_ne_nil _ _
  · exact List.append_ne_nil_of_right_ne_nil _ (List.cons_ne_nil _ _)

lemma natChars_no_space (k : Nat) : ∀ c ∈ natChars k, c ≠ ' ' := by
  induction k using Nat.strong_induction_on with
  | _ k ih =>
    rw [natChars]
    split
    · intro c hc
      rw [List.mem_singleton] at hc
      subst hc
      exact digitChar10_ne_space (by omega)
    · intro c hc
      rcases List.mem_append.mp hc with hc1 | hc2
      · exact ih (k / 10) (Nat.div_lt_self (by omega) (by omega)) c hc1
      · rw [List.mem_singleton] at hc2
        subst hc2
        exact digitChar10_ne_space (Nat.mod_lt k (by omega))

lemma parseNatChars_natChars (k : Nat) : parseNatChars (natChars k) = k := by
  induction k using Nat.strong_induction_on with
  | _ k ih =>
    rw [natChars]
    split
    · rename_i h
      show (0 * 10 + ((digitChar10 k).toNat - 48)) = k
      rw [digitChar10_toNat h]
      omega
    · rename_i h
      unfold parseNatChars
      rw [List.foldl_append]
      show (parseNatChars (natChars (k / 10))) * 10 + ((digitChar10 (k % 10)).toNat - 48) = k
      rw [ih (k / 10) (Nat.div_lt_self (by omega) (by omega)),
          digitChar10_toNat (Nat.mod_lt k (by omega))]
      omega

lemma splitSp_nospace {t : List Char} (h : ∀ c ∈ t, c ≠ ' ') :
    splitSp t = [t] := by
  induction t with
  | nil => rfl
  | cons c cs ih =>
    unfold splitSp
    rw [ih (fun x hx => h x (List.mem_cons_of_mem c hx))]
    simp [h c (List.mem_cons_self c cs)]

lemma splitSp_append_nospace {t rest : List Char} {u : List Char} {us : List (List Char)}
    (h : ∀ c ∈ t, c ≠ ' ') (hrest : splitSp rest = u :: us) :
    splitSp (t ++ rest) = (t ++ u) :: us := by
  induction t with
  | nil => simpa using hrest
  | cons c cs ih =>
    show splitSp (c :: (cs ++ rest)) = ((c :: cs) ++ u) :: us
    unfold splitSp
    rw [ih (fun x hx => h x (List.mem_cons_of_mem c hx))]
    simp [h c (List.mem_cons_self c cs)]

lemma splitSp_joinTokens : ∀ (ts : List (List Char)), ts ≠ []
    → (∀ t ∈ ts, ∀ c ∈ t, c ≠ ' ')
    → splitSp (joinTokens ts) = ts := by
  intro ts
  induction ts with
  | nil => intro h; exact absurd rfl h
  | cons t rest ih =>
    intro _ hns
    cases rest with
    | nil =>
      show splitSp (joinTokens [t]) = [t]
      unfold joinTokens
      exact splitSp_nospace (hns t (List.mem_cons_self t []))
    | cons t2 rest2 =>
      show splitSp (t ++ ' ' :: joinTokens (t2 :: rest2)) = t :: t2 :: rest2
      have hrest : splitSp (' ' :: joinTokens (t2 :: rest2)) = [] :: (t2 :: rest2) := by
        unfold splitSp
        rw [ih (List.cons_ne_nil t2 rest2)
            (fun x hx => hns x (List.mem_cons_of_mem t hx))]
        simp
      rw [splitSp_append_nospace (hns t (List.mem_cons_self t (t2 :: rest2))) hrest,
          List.append_nil]

lemma parseRow_rowLine {row : List Nat} (h : row ≠ []) :
    parseRow (rowLine row) = row := by
  unfold parseRow rowLine
  rw [splitSp_joinTokens (row.map natChars)
      (fun hmap => h (List.map_eq_nil_iff.mp hmap))
      (fun t ht => by
        obtain ⟨k, _, rfl⟩ := List.mem_map.mp ht
        exact natChars_no_space k)]
  rw [List.map_map]
  have : (parseNatChars ∘ natChars) = id := by
    funext k
    exact parseNatChars_natChars k
  rw [this, List.map_id]

lemma rowLine_ne_nil {row : List Nat} (h : row ≠ []) : rowLine row ≠ [] := by
  unfold rowLine
  cases row with
  | nil => exact absurd rfl h
  | cons x xs =>
    cases xs with
    | nil =>
      show joinTokens [natChars x] ≠ []
      unfold joinTokens
      exact natChars_ne_nil x
    | cons y ys =>
      show joinTokens (natChars x :: natChars y :: ys.map natChars) ≠ []
      unfold joinTokens
      exact List.append_ne_nil_of_left_ne_nil (natChars_ne_nil x) _

lemma takeWhile_append_blank {L rest : List (List Char)}
    (hL : ∀ l ∈ L, l ≠ []) :
    (L ++ [] :: rest).takeWhile (fun l => decide (l ≠ [])) = L := by
  induction L with
  | nil => rfl
  | cons l ls ih =>
    show List.takeWhile _ (l :: (ls ++ [] :: rest)) = l :: ls
    rw [List.takeWhile_cons]
    rw [decide_eq_true (hL l (List.mem_cons_self l ls))]
    simp only [if_true, ih (fun x hx => hL x (List.mem_cons_of_mem l hx))]

/-- C9: the plain-text dump writes one block per diagram — a header line
naming the diagram's index, the adjacency matrix as whitespace-separated
integers with one row per line, then a blank line — and parsing the first
diagram's matrix block back from the dump returns exactly the serialized
matrix (round-trip). -/
theorem print_adj_matrices_roundtrip (m : MatL) (rest : List MatL)
    (hrows : ∀ row ∈ m, row ≠ []) :
    print_adj_matrices (m :: rest)
        = (headerLine 1 :: m.map rowLine ++ [[]]) ++ dumpFrom 2 rest
      ∧ parseBlock (print_adj_matrices (m :: rest)) = m := by
  constructor
  · rfl
  · show parseBlock ((headerLine 1 :: m.map rowLine ++ [[]]) ++ dumpFrom 2 rest) = m
    unfold parseBlock
    have hdrop : (((headerLine 1 :: m.map rowLine ++ [[]]) ++ dumpFrom 2 rest).drop 1)
        = m.map rowLine ++ [] :: dumpFrom 2 rest := by
      show ((headerLine 1 :: (m.map rowLine ++ [[]])) ++ dumpFrom 2 rest).drop 1
          = m.map rowLine ++ [] :: dumpFrom 2 rest
      rw [List.cons_append, List.drop_one, List.tail_cons, List.append_assoc]
      rfl
    rw [hdrop, takeWhile_append_blank (fun l hl => by
      obtain ⟨row, hrow, rfl⟩ := List.mem_map.mp hl
      exact rowLine_ne_nil (hrows row hrow))]
    rw [List.map_map]
    have hcongr : ∀ row ∈ m, (parseRow ∘ rowLine) row = id row :=
      fun row hrow => parseRow_rowLine (hrows row hrow)
    rw [List.map_congr_left hcongr, List.map_id]

/-- Witness for C9: the dump of the single order-2 MBPT diagram parses back
to the same matrix. -/
theorem print_adj_matrices_roundtrip_witness :
    parseBlock (print_adj_matrices [[[0, 2], [2, 0]]]) = [[0, 2], [2, 0]] :=
  (print_adj_matrices_roundtrip [[0, 2], [2, 0]] [] (by decide)).2
